import Mathlib

/-!
Verification of the task/workflow orchestration engine of the
Multi-Model-Researcher repository, a shallow embedding of
`src/agents/supervisor/supervisor_agent.py`.

The embedding models:
- the `TaskStatus` state machine and the `Task` record (datetime fields and
  the opaque `description`/`requirements` payloads are elided; `result` is
  modelled as an association list from string keys to rational values, which
  is what `_validate_task_result` inspects);
- `_select_agent_for_task` (the scheduler), with the registry represented as
  insertion-ordered association lists mirroring the Python dicts
  `agent_capabilities`, `registered_agents` and `agent_load`; Python's
  `min(xs, key=f)` (first minimal element wins) is modelled by `pyMin`;
  `random.choice` is modelled by an explicit oracle parameter used only in
  the `"random"` branch;
- `_assign_and_execute_task`, `_handle_task_response` and
  `_monitor_task_timeout` as state transformers over `SupState`, a
  single-task supervisor state; `dispatch_count` counts `send_message` calls
  and `sleeps` records the backoff delays passed to `asyncio.sleep`;
- `_execute_workflow` as a fuel-indexed loop over an outcome oracle giving
  each step's task's eventual terminal status (true = COMPLETED,
  false = FAILED); in the source the inner polling loop drains every
  in-flight step task before the next scheduling pass, so at each pass the
  `step_tasks` map is empty and batch outcomes are read in insertion order;
- the `completed_steps` computation of the `GET /workflows/{workflow_id}`
  route and `_validate_task_result`.
-/

namespace Supervisor

/-- Mirrors the `TaskStatus` enum of the source. -/
inductive TaskStatus where
  | pending
  | in_progress
  | completed
  | failed
  | cancelled
deriving DecidableEq, Repr

/-- Mirrors the `Task` pydantic model; datetime fields, priority and the
opaque payloads that no verified claim inspects are elided.  `result` keeps
the keys `_validate_task_result` reads, with rational values standing for
Python numbers. -/
structure Task where
  id : String
  type : String
  status : TaskStatus
  assigned_agent : Option String
  retry_count : Nat
  max_retries : Nat
  result : Option (List (String × ℚ))
  error_message : Option String
deriving DecidableEq, Repr

/-- Mirrors `WorkflowStep` (parameters and timeout elided; they are opaque to
the executor's control flow). -/
structure WorkflowStep where
  id : String
  agent_type : String
  task_type : String
  depends_on : List String
deriving DecidableEq, Repr

/-- Insertion-position-preserving update of an association list, mirroring
Python dict assignment `d[k] = v` (an existing key keeps its position). -/
def assocSet : List (String × Nat) → String → Nat → List (String × Nat)
  | [], k, v => [(k, v)]
  | (k', v') :: rest, k, v =>
    if k = k' then (k, v) :: rest else (k', v') :: assocSet rest k v

/-- Python's `min(b :: l, key=f)`: first element attaining the minimum key
(replacement only on strict decrease). -/
def pyMin (f : String → Nat) : String → List String → String
  | best, [] => best
  | best, x :: xs => if f x < f best then pyMin f x xs else pyMin f best xs

/-- `agent_load.get(x, 0)` from the source. -/
def loadKey (agent_load : List (String × Nat)) (x : String) : Nat :=
  (agent_load.lookup x).getD 0

/-- The filter phase of `_select_agent_for_task`: agents whose capability set
contains the task type and whose registry status is `"ready"`, in
registration (insertion) order. -/
def suitable_agents (agent_capabilities : List (String × List String))
    (registered_agents : List (String × String)) (taskType : String) :
    List String :=
  (agent_capabilities.filter (fun p =>
    p.2.contains taskType && (registered_agents.lookup p.1 == some "ready"))).map
    (fun p => p.1)

/-- `_select_agent_for_task` (supervisor_agent.py lines 375-398).
`randomOracle` stands for `random.choice` and is consulted only by the
`"random"` strategy. -/
def select_agent_for_task (strategy : String)
    (agent_capabilities : List (String × List String))
    (registered_agents : List (String × String))
    (agent_load : List (String × Nat))
    (randomOracle : List String → Option String)
    (taskType : String) : Option String :=
  match suitable_agents agent_capabilities registered_agents taskType with
  | [] => none
  | a :: rest =>
    if strategy = "round_robin" then some (pyMin (loadKey agent_load) a rest)
    else if strategy = "random" then randomOracle (a :: rest)
    else if strategy = "load_balanced" then some (pyMin (loadKey agent_load) a rest)
    else some a

/-- Supervisor state restricted to a single in-flight task, which is all the
dispatch/response/timeout claims quantify over.  `dispatch_count` counts the
`send_message(agent_id, TASK_REQUEST, ...)` calls and `sleeps` records each
backoff delay passed to `asyncio.sleep` in the retry branch. -/
structure SupState where
  agent_capabilities : List (String × List String)
  registered_agents : List (String × String)
  agent_load : List (String × Nat)
  task : Task
  task_assignment_strategy : String
  dispatch_count : Nat
  sleeps : List Nat
deriving DecidableEq, Repr

/-- The common load-release code at the end of `_handle_task_response`
(lines 459-462) and in `_monitor_task_timeout`:
`agent_load[a] = max(0, agent_load.get(a, 0) - 1)`.  Nat subtraction models
the `max(0, ...)` clamp. -/
def dec_load (st : SupState) : SupState :=
  match st.task.assigned_agent with
  | none => st
  | some a =>
    { st with agent_load := assocSet st.agent_load a (loadKey st.agent_load a - 1) }

/-- `_assign_and_execute_task` (lines 333-373): select an agent; on failure
mark the task FAILED with "No suitable agent available"; otherwise assign,
mark IN_PROGRESS, increment the agent's load and send (counted by
`dispatch_count`). -/
def assign_and_execute_task (randomOracle : List String → Option String)
    (st : SupState) : SupState :=
  match select_agent_for_task st.task_assignment_strategy st.agent_capabilities
      st.registered_agents st.agent_load randomOracle st.task.type with
  | none =>
    { st with task := { st.task with
                        status := .failed,
                        error_message := some "No suitable agent available" } }
  | some agentId =>
    { st with
      task := { st.task with assigned_agent := some agentId, status := .in_progress },
      agent_load := assocSet st.agent_load agentId (loadKey st.agent_load agentId + 1),
      dispatch_count := st.dispatch_count + 1 }

/-- Lines 447-449 of `_handle_task_response`: on a `"failed"` response the
task is marked FAILED and the payload's error (default "Unknown error") is
recorded. -/
def mark_failed (err : Option String) (st : SupState) : SupState :=
  { st with task := { st.task with
                      status := .failed,
                      error_message := some (err.getD "Unknown error") } }

/-- Lines 435-438: on a `"completed"` response the task is marked COMPLETED
and `payload.get("result", {})` is stored. -/
def mark_completed (res : Option (List (String × ℚ))) (st : SupState) : SupState :=
  { st with task := { st.task with status := .completed, result := some (res.getD []) } }

/-- Lines 451-457: if retry budget remains, increment `retry_count`, set the
task back to PENDING, sleep `2 ** retry_count` seconds (the freshly
incremented count) and re-dispatch, returning without falling through to the
load decrement; otherwise fall through to the decrement. -/
def maybe_retry (randomOracle : List String → Option String) (st : SupState) :
    SupState :=
  if st.task.retry_count < st.task.max_retries then
    assign_and_execute_task randomOracle
      { st with
        task := { st.task with
                  retry_count := st.task.retry_count + 1,
                  status := .pending },
        sleeps := st.sleeps ++ [2 ^ (st.task.retry_count + 1)] }
  else dec_load st

/-- `_handle_task_response` (lines 423-469) for the single tracked task.
A response with any status other than `"completed"`/`"failed"` still falls
through to the load decrement, as in the source. -/
def handle_task_response (randomOracle : List String → Option String)
    (st : SupState) (respStatus : String)
    (res : Option (List (String × ℚ))) (err : Option String) : SupState :=
  if respStatus = "completed" then dec_load (mark_completed res st)
  else if respStatus = "failed" then maybe_retry randomOracle (mark_failed err st)
  else dec_load st

/-- `_monitor_task_timeout` (lines 490-504) at the moment its deadline
elapses: if the task is still IN_PROGRESS it is force-failed and the
assigned agent's load decremented; otherwise nothing happens. -/
def monitor_task_timeout (timeout : Nat) (st : SupState) : SupState :=
  if st.task.status = .in_progress then
    dec_load { st with task := { st.task with
                                 status := .failed,
                                 error_message := some ("Task timed out after " ++ toString timeout ++ " seconds") } }
  else st

/-- `_validate_task_result` (lines 471-488): a missing or empty (falsy)
result dict is rejected; a present confidence score is checked against the
threshold only when it is truthy (nonzero); the completion-time check only
logs and never affects the verdict. -/
def validate_task_result (result : Option (List (String × ℚ)))
    (confidence_threshold : ℚ) : Bool :=
  match result with
  | none => false
  | some r =>
    if r = [] then false
    else
      match r.lookup "confidence_score" with
      | none => true
      | some c => if c ≠ 0 ∧ c < confidence_threshold then false else true

/-- The `completed_steps` expression of the `GET /workflows/{workflow_id}`
route (lines 153-154): count the workflow's steps whose *step id* is a key
of the `active_tasks` map (which is keyed by task UUIDs) with a COMPLETED
task under it. -/
def workflow_completed_steps (steps : List WorkflowStep)
    (active_tasks : List (String × Task)) : Nat :=
  (steps.filter (fun step =>
    match active_tasks.lookup step.id with
    | some t => decide (t.status = TaskStatus.completed)
    | none => false)).length

/-- Outcome of one run of `_execute_workflow`. -/
inductive WfResult where
  | completedOk
  | failedStep (stepId : String)
  | circular
  | outOfFuel
deriving DecidableEq, Repr

/-- Final workflow status written by `_execute_workflow`: COMPLETED after all
steps complete; FAILED both from a failed step task and from the caught
circular-dependency exception; a run still in its loop is IN_PROGRESS. -/
def statusOf : WfResult → TaskStatus
  | .completedOk => .completed
  | .failedStep _ => .failed
  | .circular => .failed
  | .outOfFuel => .in_progress

/-- Result of a terminated `_execute_workflow` run together with the set of
steps that were ever scheduled (got a task created) and the final
`completed_steps` set, both in creation order. -/
structure WfRun where
  result : WfResult
  scheduled : List String
  completedSet : List String
deriving DecidableEq, Repr

/-- The `ready_steps` comprehension (lines 271-275): steps not yet completed,
not currently running, all of whose dependencies are completed. -/
def readySteps (steps : List WorkflowStep) (comp running : List String) :
    List WorkflowStep :=
  steps.filter (fun s =>
    decide (s.id ∉ comp) && decide (s.id ∉ running) &&
      s.depends_on.all (fun d => decide (d ∈ comp)))

/-- The inner polling loop (lines 301-316) over one batch of freshly created
step tasks, with each task's eventual terminal status given by `outcome`
(true = COMPLETED, false = FAILED) and observed in creation order: a
COMPLETED step is added to `completed_steps`; the first FAILED step aborts
the workflow.  Returns the updated completed set and the first failed step
id, if any. -/
def processBatch (outcome : String → Bool) :
    List String → List WorkflowStep → List String × Option String
  | comp, [] => (comp, none)
  | comp, s :: rest =>
    if outcome s.id then processBatch outcome (comp ++ [s.id]) rest
    else (comp, some s.id)

/-- One pass of the outer `while len(completed_steps) < len(workflow.steps)`
loop of `_execute_workflow`: either a terminal `WfRun` or the continuation
state.  At the top of each pass the `step_tasks` map is empty (the inner loop
drains it), so the stuck check `if step_tasks: wait else raise` reduces to
raising the circular-dependency error. -/
inductive PassResult where
  | done (r : WfRun)
  | next (comp sched : List String)
deriving Repr

/-- One scheduling pass of `_execute_workflow` (lines 269-316). -/
def execPass (outcome : String → Bool) (steps : List WorkflowStep)
    (comp sched : List String) : PassResult :=
  if steps.length ≤ comp.length then .done ⟨.completedOk, sched, comp⟩
  else
    match readySteps steps comp [] with
    | [] => .done ⟨.circular, sched, comp⟩
    | ready@(_ :: _) =>
      let sched2 := sched ++ ready.map (fun s => s.id)
      match processBatch outcome comp ready with
      | (comp2, some f) => .done ⟨.failedStep f, sched2, comp2⟩
      | (comp2, none) => .next comp2 sched2

/-- The outer loop of `_execute_workflow`, fuel-indexed; each pass either
terminates the workflow or strictly grows the completed set, so fuel
`steps.length + 1` always suffices. -/
def execLoop (outcome : String → Bool) (steps : List WorkflowStep) :
    Nat → List String → List String → WfRun
  | 0, comp, sched => ⟨.outOfFuel, sched, comp⟩
  | fuel + 1, comp, sched =>
    match execPass outcome steps comp sched with
    | .done r => r
    | .next comp2 sched2 => execLoop outcome steps fuel comp2 sched2

/-- `_execute_workflow` on a workflow with the given steps, starting from
empty `completed_steps` and `step_tasks` (lines 265-266). -/
def execute_workflow (outcome : String → Bool) (steps : List WorkflowStep) :
    WfRun :=
  execLoop outcome steps (steps.length + 1) [] []

/-- The ids of a list of steps. -/
def stepIds (steps : List WorkflowStep) : List String :=
  steps.map (fun s => s.id)

/-- Well-formedness used by the acyclicity claims: step ids are distinct and
there is a rank function strictly decreasing along dependency edges whose
targets all exist — the standard characterization of a finite DAG over the
step ids. -/
def WfAcyclic (steps : List WorkflowStep) : Prop :=
  (stepIds steps).Nodup ∧
    ∃ rank : String → Nat, ∀ s ∈ steps, ∀ d ∈ s.depends_on,
      (∃ t ∈ steps, t.id = d) ∧ rank d < rank s.id

/-- The step graph contains a cycle: some nonempty set `C` of step ids is
such that each of its members' steps depends on another member — exactly the
finite graphs with no topological order (every directed cycle yields such a
`C`, and such a `C` supports an infinite walk, hence a cycle). -/
def HasCycle (steps : List WorkflowStep) : Prop :=
  ∃ C : List String, C ≠ [] ∧
    ∀ d ∈ C, ∃ s ∈ steps, s.id = d ∧ ∃ d2 ∈ C, d2 ∈ s.depends_on

/-- A `random.choice` stand-in; never consulted by the strategies the claims
are about. -/
def noRandom : List String → Option String := fun _ => none

/-- A second `random.choice` stand-in, used to state oracle-independence. -/
def headRandom : List String → Option String := fun l => l.head?

/-- A fresh single task of type `"work"` with the given retry budget, as
built by `_create_task`. -/
def initTask (maxRetries : Nat) : Task :=
  { id := "t1", type := "work", status := .pending, assigned_agent := none,
    retry_count := 0, max_retries := maxRetries, result := none,
    error_message := none }

/-- Supervisor state with one registered ready agent `"w"` capable of
`"work"`, zero load, and a fresh task, under the load-balanced strategy. -/
def initState (maxRetries : Nat) : SupState :=
  { agent_capabilities := [("w", ["work"])],
    registered_agents := [("w", "ready")],
    agent_load := [("w", 0)],
    task := initTask maxRetries,
    task_assignment_strategy := "load_balanced",
    dispatch_count := 0,
    sleeps := [] }

/-- One `"failed"` agent response with error `"boom"`. -/
def failStep (st : SupState) : SupState :=
  handle_task_response noRandom st "failed" none (some "boom")

/-- State after the initial dispatch followed by `k` consecutive `"failed"`
responses. -/
def afterKFailures (maxRetries k : Nat) : SupState :=
  failStep^[k] (assign_and_execute_task noRandom (initState maxRetries))

/-- The run of a task whose worker reports failure on every dispatch: the
initial dispatch and then a failed response for every attempt
(`maxRetries + 1` of them). -/
def runAllFailures (maxRetries : Nat) : SupState :=
  afterKFailures maxRetries (maxRetries + 1)

/-- Dispatch followed by an arbitrary sequence of agent responses, each a
status string and an optional error. -/
def runResponses (maxRetries : Nat) (rs : List (String × Option String)) :
    SupState :=
  rs.foldl (fun st p => handle_task_response noRandom st p.1 none p.2)
    (assign_and_execute_task noRandom (initState maxRetries))

/-- The supervisor task state reached after the first dispatch and `k`
retries of the always-failing worker (`k ≤ max_retries`): `IN_PROGRESS`,
assigned to `"w"`, with `k + 1` accumulated units of load on `"w"`,
`k + 1` dispatches and the backoff delays `2^1, ..., 2^k` recorded. -/
def midState (maxRetries k : Nat) : SupState :=
  { agent_capabilities := [("w", ["work"])],
    registered_agents := [("w", "ready")],
    agent_load := [("w", k + 1)],
    task := { id := "t1", type := "work", status := .in_progress,
              assigned_agent := some "w", retry_count := k,
              max_retries := maxRetries, result := none,
              error_message := if k = 0 then none else some "boom" },
    task_assignment_strategy := "load_balanced",
    dispatch_count := k + 1,
    sleeps := (List.range k).map (fun i => 2 ^ (i + 1)) }

/-! ### Scheduler lemmas -/

theorem pyMin_mem (f : String → Nat) : ∀ (l : List String) (b : String),
    pyMin f b l ∈ b :: l := by
  intro l
  induction l with
  | nil => intro b; simp [pyMin]
  | cons x xs ih =>
    intro b
    rw [pyMin]
    by_cases h : f x < f b
    · rw [if_pos h]
      exact List.mem_cons_of_mem b (ih x)
    · rw [if_neg h]
      rcases List.mem_cons.mp (ih b) with h1 | h1
      · rw [h1]; exact List.mem_cons_self b (x :: xs)
      · exact List.mem_cons_of_mem b (List.mem_cons_of_mem x h1)

theorem pyMin_le (f : String → Nat) : ∀ (l : List String) (b : String),
    ∀ y ∈ b :: l, f (pyMin f b l) ≤ f y := by
  intro l
  induction l with
  | nil =>
    intro b y hy
    rcases List.mem_cons.mp hy with h | h
    · rw [h]; simp [pyMin]
    · simp at h
  | cons x xs ih =>
    intro b y hy
    rw [pyMin]
    by_cases h : f x < f b
    · rw [if_pos h]
      rcases List.mem_cons.mp hy with h1 | h1
      · have hx : f (pyMin f x xs) ≤ f x := ih x x (List.mem_cons_self x xs)
        rw [h1]
        exact le_trans hx (le_of_lt h)
      · exact ih x y h1
    · rw [if_neg h]
      rcases List.mem_cons.mp hy with h1 | h1
      · rw [h1]
        exact ih b b (List.mem_cons_self b xs)
      · rcases List.mem_cons.mp h1 with h2 | h2
        · have hb : f (pyMin f b xs) ≤ f b := ih b b (List.mem_cons_self b xs)
          rw [h2]
          exact le_trans hb (le_of_not_lt h)
        · exact ih b y (List.mem_cons_of_mem b h2)

/-- Python `min` returns the first element attaining the minimum: everything
strictly before the returned element in the list has a strictly larger key. -/
theorem pyMin_first (f : String → Nat) : ∀ (l : List String) (b : String),
    ∃ n : Nat, (b :: l)[n]? = some (pyMin f b l) ∧
      ∀ m < n, ∀ y, (b :: l)[m]? = some y → f (pyMin f b l) < f y := by
  intro l
  induction l with
  | nil =>
    intro b
    refine ⟨0, by simp [pyMin], ?_⟩
    intro m hm
    omega
  | cons x xs ih =>
    intro b
    rw [pyMin]
    by_cases h : f x < f b
    · rw [if_pos h]
      obtain ⟨n, hn, hlt⟩ := ih x
      refine ⟨n + 1, by simpa using hn, ?_⟩
      intro m hm y hy
      match m with
      | 0 =>
        rw [List.getElem?_cons_zero] at hy
        rw [← Option.some.inj hy]
        exact lt_of_le_of_lt (pyMin_le f xs x x (List.mem_cons_self x xs)) h
      | m + 1 =>
        rw [List.getElem?_cons_succ] at hy
        exact hlt m (by omega) y hy
    · rw [if_neg h]
      obtain ⟨n, hn, hlt⟩ := ih b
      match n with
      | 0 =>
        rw [List.getElem?_cons_zero] at hn
        have hb : pyMin f b xs = b := (Option.some.inj hn).symm
        refine ⟨0, ?_, ?_⟩
        · rw [List.getElem?_cons_zero, hb]
        · intro m hm
          omega
      | n + 1 =>
        rw [List.getElem?_cons_succ] at hn
        refine ⟨n + 2, ?_, ?_⟩
        · rw [List.getElem?_cons_succ, List.getElem?_cons_succ]
          exact hn
        · intro m hm y hy
          match m with
          | 0 =>
            rw [List.getElem?_cons_zero] at hy
            rw [← Option.some.inj hy]
            exact hlt 0 (by omega) b (by rw [List.getElem?_cons_zero])
          | 1 =>
            rw [List.getElem?_cons_succ, List.getElem?_cons_zero] at hy
            rw [← Option.some.inj hy]
            exact lt_of_lt_of_le (hlt 0 (by omega) b (by rw [List.getElem?_cons_zero]))
              (le_of_not_lt h)
          | m + 2 =>
            rw [List.getElem?_cons_succ, List.getElem?_cons_succ] at hy
            exact hlt (m + 1) (by omega) y (by rw [List.getElem?_cons_succ]; exact hy)

/-- Eligible agents A (capability "fetch") and B (capability "fetch"), in
that registration order, both ready. -/
def demoCaps : List (String × List String) := [("A", ["fetch"]), ("B", ["fetch"])]

/-- Registry statuses of the demo agents. -/
def demoRegs : List (String × String) := [("A", "ready"), ("B", "ready")]

/-- Demo loads: A at 0, B at 2. -/
def demoLoad : List (String × Nat) := [("A", 0), ("B", 2)]

/-- Loads A at 1, B at 0. -/
def rrLoadA : List (String × Nat) := [("A", 1), ("B", 0)]

/-- Loads A at 0, B at 1. -/
def rrLoadB : List (String × Nat) := [("A", 0), ("B", 1)]

/-- Claim C7: under the load-balanced strategy, `_select_agent_for_task` is
deterministic over a fixed registry snapshot (in particular it does not
consult the random oracle): it returns the eligible agent of minimum current
load, ties broken by earliest registration order (everything earlier in the
eligible list has strictly larger load); with eligible agents A (load 0) and
B (load 2), a "fetch" task selects A. -/
theorem C7_load_balanced_deterministic
    (caps : List (String × List String)) (regs : List (String × String))
    (load : List (String × Nat)) (oracle1 oracle2 : List String → Option String)
    (ttype : String) (h : suitable_agents caps regs ttype ≠ []) :
    (select_agent_for_task "load_balanced" caps regs load oracle1 ttype =
      select_agent_for_task "load_balanced" caps regs load oracle2 ttype) ∧
    (∃ (r : String) (n : Nat),
      select_agent_for_task "load_balanced" caps regs load oracle1 ttype = some r ∧
      (suitable_agents caps regs ttype)[n]? = some r ∧
      (∀ y ∈ suitable_agents caps regs ttype, loadKey load r ≤ loadKey load y) ∧
      (∀ m < n, ∀ y, (suitable_agents caps regs ttype)[m]? = some y →
        loadKey load r < loadKey load y)) ∧
    select_agent_for_task "load_balanced" demoCaps demoRegs demoLoad noRandom "fetch" =
      some "A" := by
  match heq : suitable_agents caps regs ttype with
  | [] => exact absurd heq h
  | a :: rest =>
    refine ⟨?_, ?_, by decide⟩
    · simp [select_agent_for_task, heq]
    · refine ⟨pyMin (loadKey load) a rest, ?_⟩
      obtain ⟨n, hn, hlt⟩ := pyMin_first (loadKey load) rest a
      refine ⟨n, ?_, ?_, ?_, ?_⟩
      · simp [select_agent_for_task, heq]
      · exact hn
      · intro y hy
        exact pyMin_le (loadKey load) rest a y hy
      · intro m hm y hy
        exact hlt m hm y hy

/-- Witness for C7 at the demo registry: the selection does not depend on the
random oracle. -/
theorem C7_load_balanced_deterministic_witness :
    select_agent_for_task "load_balanced" demoCaps demoRegs demoLoad noRandom "fetch" =
      select_agent_for_task "load_balanced" demoCaps demoRegs demoLoad headRandom "fetch" :=
  (C7_load_balanced_deterministic demoCaps demoRegs demoLoad noRandom headRandom
    "fetch" (by decide)).1

/-- Claim C8 counterexample: the choice of the `"round_robin"` strategy does
depend on the agents' load counters — with the same eligible set in the same
order, flipping the two loads flips the selected agent, and the minimum-load
agent is returned rather than a rotation. -/
theorem C8_counterexample :
    select_agent_for_task "round_robin" demoCaps demoRegs rrLoadA noRandom "fetch" =
        some "B" ∧
      select_agent_for_task "round_robin" demoCaps demoRegs rrLoadB noRandom "fetch" =
        some "A" ∧
      select_agent_for_task "round_robin" demoCaps demoRegs rrLoadA noRandom "fetch" ≠
        select_agent_for_task "round_robin" demoCaps demoRegs rrLoadB noRandom "fetch" := by
  refine ⟨by decide, by decide, by decide⟩

/-- Claim C8 (amended): the `"round_robin"` branch of
`_select_agent_for_task` (line 390-391) is the same `min(suitable, key=load)`
expression as the load-balanced branch, so round-robin selection coincides
with load-balanced selection on every input: it picks the first eligible
agent of minimum load instead of rotating, and it depends on the load
counters. -/
theorem C8_round_robin_equals_load_balanced
    (caps : List (String × List String)) (regs : List (String × String))
    (load : List (String × Nat)) (oracle : List String → Option String)
    (ttype : String) :
    select_agent_for_task "round_robin" caps regs load oracle ttype =
      select_agent_for_task "load_balanced" caps regs load oracle ttype := by
  match heq : suitable_agents caps regs ttype with
  | [] => simp only [select_agent_for_task, heq]
  | a :: rest =>
    simp [select_agent_for_task, heq]

/-- Keyless lookup returns none. -/
theorem lookup_eq_none_of_no_key {α : Type} :
    ∀ (l : List (String × α)) (k : String), (∀ p ∈ l, k ≠ p.1) →
      l.lookup k = none := by
  intro l
  induction l with
  | nil => intro k _; rfl
  | cons p rest ih =>
    intro k hk
    have hne : (k == p.1) = false :=
      beq_eq_false_iff_ne.mpr (hk p (List.mem_cons_self p rest))
    simp only [List.lookup, hne]
    exact ih k (fun q hq => hk q (List.mem_cons_of_mem p hq))

/-- Claim C9: the status route's `completed_steps` counts workflow step ids
that occur as keys of the task-UUID-keyed `active_tasks` map, so whenever the
step ids are distinct from every active task id the reported count is 0, no
matter how many steps actually completed. -/
theorem C9_completed_steps_always_zero (steps : List WorkflowStep)
    (active_tasks : List (String × Task))
    (h : ∀ s ∈ steps, ∀ p ∈ active_tasks, s.id ≠ p.1) :
    workflow_completed_steps steps active_tasks = 0 := by
  unfold workflow_completed_steps
  rw [List.length_eq_zero, List.filter_eq_nil_iff]
  intro s hs
  rw [lookup_eq_none_of_no_key active_tasks s.id (h s hs)]
  simp

/-- A workflow step. -/
def c9Steps : List WorkflowStep :=
  [{ id := "S1", agent_type := "worker", task_type := "fetch", depends_on := [] }]

/-- An active-task map keyed by a task UUID whose task is COMPLETED. -/
def c9Tasks : List (String × Task) :=
  [("0f8c2c1e-77aa-4b0e-9af5-0f3c9a1d2b34",
    { id := "0f8c2c1e-77aa-4b0e-9af5-0f3c9a1d2b34", type := "fetch",
      status := .completed, assigned_agent := some "w", retry_count := 0,
      max_retries := 3, result := some [("confidence_score", 1)],
      error_message := none })]

/-- Witness for C9: the single step's task is COMPLETED under its UUID key,
yet the route reports zero completed steps. -/
theorem C9_completed_steps_always_zero_witness :
    workflow_completed_steps c9Steps c9Tasks = 0 :=
  C9_completed_steps_always_zero c9Steps c9Tasks (by decide)

/-- Claim C10: a nonempty completed result carrying `confidence_score = 0` is
accepted by `_validate_task_result` even against a positive threshold,
because the below-threshold test runs only when the confidence value is
truthy. -/
theorem C10_zero_confidence_accepted (r : List (String × ℚ)) (thr : ℚ)
    (h1 : r ≠ []) (h2 : r.lookup "confidence_score" = some 0) (h3 : 0 < thr) :
    validate_task_result (some r) thr = true := by
  simp [validate_task_result, h1, h2]

/-- Witness for C10 at the concrete result `{"confidence_score": 0}` against
the default threshold 0.8. -/
theorem C10_zero_confidence_accepted_witness :
    validate_task_result (some [("confidence_score", 0)]) (4 / 5 : ℚ) = true :=
  C10_zero_confidence_accepted [("confidence_score", 0)] (4 / 5 : ℚ)
    (by simp) (by simp [List.lookup]) (by norm_num)


theorem assign_init (N : Nat) :
    assign_and_execute_task noRandom (initState N) = midState N 0 := rfl

theorem failStep_mid (N k : Nat) (h : k < N) :
    failStep (midState N k) = midState N (k + 1) := by
  simp only [failStep, handle_task_response, mark_failed, maybe_retry,
    assign_and_execute_task, select_agent_for_task, suitable_agents, midState,
    loadKey, assocSet, noRandom]
  rw [if_pos h]
  simp [pyMin, List.lookup, List.range_succ]


/-- Terminal state of the always-failing run with budget `maxRetries`:
FAILED, retry budget exhausted, `maxRetries + 1` dispatches performed, and —
because the retry branch returns before the decrement — `maxRetries` units of
load still recorded against `"w"` (only the final, non-retried failure was
decremented). -/
def finalFailState (maxRetries : Nat) : SupState :=
  { agent_capabilities := [("w", ["work"])],
    registered_agents := [("w", "ready")],
    agent_load := [("w", maxRetries)],
    task := { id := "t1", type := "work", status := .failed,
              assigned_agent := some "w", retry_count := maxRetries,
              max_retries := maxRetries, result := none,
              error_message := some "boom" },
    task_assignment_strategy := "load_balanced",
    dispatch_count := maxRetries + 1,
    sleeps := (List.range maxRetries).map (fun i => 2 ^ (i + 1)) }

theorem afterKFailures_eq (N : Nat) : ∀ k, k ≤ N →
    afterKFailures N k = midState N k := by
  intro k
  induction k with
  | zero =>
    intro _
    simpa [afterKFailures] using assign_init N
  | succ k ih =>
    intro hk
    have hk' : k ≤ N := Nat.le_of_succ_le hk
    unfold afterKFailures
    rw [Function.iterate_succ_apply']
    have : failStep^[k] (assign_and_execute_task noRandom (initState N)) =
        midState N k := ih hk'
    rw [this]
    exact failStep_mid N k (Nat.lt_of_succ_le hk)

theorem failStep_terminal (N : Nat) :
    failStep (midState N N) = finalFailState N := by
  simp only [failStep, handle_task_response, mark_failed, maybe_retry, dec_load,
    midState, finalFailState, loadKey, assocSet]
  rw [if_neg (lt_irrefl N)]
  simp [List.lookup]

theorem runAllFailures_eq (N : Nat) : runAllFailures N = finalFailState N := by
  unfold runAllFailures afterKFailures
  rw [Function.iterate_succ_apply']
  have : failStep^[N] (assign_and_execute_task noRandom (initState N)) =
      midState N N := afterKFailures_eq N N le_rfl
  rw [this]
  exact failStep_terminal N


theorem dec_load_counters (st : SupState) :
    (dec_load st).dispatch_count = st.dispatch_count ∧
      (dec_load st).task = st.task := by
  unfold dec_load
  cases st.task.assigned_agent <;> simp

theorem assign_counters (o : List String → Option String) (st : SupState) :
    (assign_and_execute_task o st).dispatch_count ≤ st.dispatch_count + 1 ∧
      (assign_and_execute_task o st).task.retry_count = st.task.retry_count ∧
      (assign_and_execute_task o st).task.max_retries = st.task.max_retries := by
  unfold assign_and_execute_task
  cases select_agent_for_task st.task_assignment_strategy st.agent_capabilities
      st.registered_agents st.agent_load o st.task.type <;> simp

theorem maybe_retry_inv (o : List String → Option String) (st : SupState)
    (h1 : st.dispatch_count ≤ st.task.retry_count + 1)
    (h2 : st.task.retry_count ≤ st.task.max_retries) :
    (maybe_retry o st).dispatch_count ≤ (maybe_retry o st).task.retry_count + 1 ∧
      (maybe_retry o st).task.retry_count ≤ (maybe_retry o st).task.max_retries ∧
      (maybe_retry o st).task.max_retries = st.task.max_retries := by
  unfold maybe_retry
  by_cases hr : st.task.retry_count < st.task.max_retries
  · rw [if_pos hr]
    obtain ⟨ha, hb, hm⟩ := assign_counters o
      { st with
        task := { st.task with
                  retry_count := st.task.retry_count + 1,
                  status := .pending },
        sleeps := st.sleeps ++ [2 ^ (st.task.retry_count + 1)] }
    refine ⟨?_, ?_, ?_⟩
    · rw [hb]
      have ha2 : (assign_and_execute_task o
          { st with
            task := { st.task with
                      retry_count := st.task.retry_count + 1,
                      status := .pending },
            sleeps := st.sleeps ++ [2 ^ (st.task.retry_count + 1)] }).dispatch_count ≤
          st.dispatch_count + 1 := ha
      show _ ≤ st.task.retry_count + 1 + 1
      omega
    · rw [hb, hm]
      show st.task.retry_count + 1 ≤ st.task.max_retries
      omega
    · exact hm
  · rw [if_neg hr]
    obtain ⟨hd, ht⟩ := dec_load_counters st
    rw [hd, ht]
    exact ⟨h1, h2, rfl⟩

/-- Dispatch-count invariant of the response handler: the number of sends
never exceeds `retry_count + 1`, and `retry_count` never exceeds
`max_retries`, which the handler also preserves. -/
theorem handle_inv (o : List String → Option String) (st : SupState)
    (s : String) (r : Option (List (String × ℚ))) (e : Option String)
    (h1 : st.dispatch_count ≤ st.task.retry_count + 1)
    (h2 : st.task.retry_count ≤ st.task.max_retries) :
    (handle_task_response o st s r e).dispatch_count ≤
        (handle_task_response o st s r e).task.retry_count + 1 ∧
      (handle_task_response o st s r e).task.retry_count ≤
        (handle_task_response o st s r e).task.max_retries ∧
      (handle_task_response o st s r e).task.max_retries =
        st.task.max_retries := by
  unfold handle_task_response
  by_cases hc : s = "completed"
  · rw [if_pos hc]
    obtain ⟨hd, ht⟩ := dec_load_counters (mark_completed r st)
    rw [hd, ht]
    exact ⟨h1, h2, rfl⟩
  · rw [if_neg hc]
    by_cases hf : s = "failed"
    · rw [if_pos hf]
      exact maybe_retry_inv o (mark_failed e st) h1 h2
    · rw [if_neg hf]
      obtain ⟨hd, ht⟩ := dec_load_counters st
      rw [hd, ht]
      exact ⟨h1, h2, rfl⟩

/-- The dispatch bound over an arbitrary response sequence. -/
theorem foldl_dispatch_le (rs : List (String × Option String)) :
    ∀ st : SupState, st.dispatch_count ≤ st.task.retry_count + 1 →
      st.task.retry_count ≤ st.task.max_retries →
      (rs.foldl (fun st p => handle_task_response noRandom st p.1 none p.2)
          st).dispatch_count ≤ st.task.max_retries + 1 := by
  induction rs with
  | nil =>
    intro st h1 h2
    simp only [List.foldl_nil]
    omega
  | cons p ps ih =>
    intro st h1 h2
    simp only [List.foldl_cons]
    obtain ⟨g1, g2, g3⟩ := handle_inv noRandom st p.1 none p.2 h1 h2
    have := ih (handle_task_response noRandom st p.1 none p.2) g1 (by omega)
    rw [g3] at this
    exact this


/-- Claim C1 (failing run): with `max_retries = 1` and a worker that fails
both attempts, the supervisor increments `"w"`'s load at each of the 2
dispatches but decrements it only once (for the final, non-retried failure):
the retry branch of `_handle_task_response` returns before the decrement, so
the terminal state still carries one unit of phantom load, although the task
is FAILED and no attempt is in flight.  A completed first response, by
contrast, balances the books. -/
theorem C1_load_leak_on_retry :
    (runAllFailures 1).task.status = TaskStatus.failed ∧
      (runAllFailures 1).dispatch_count = 2 ∧
      (runAllFailures 1).agent_load = [("w", 1)] ∧
      (runResponses 1 [("completed", none)]).agent_load = [("w", 0)] := by
  refine ⟨?_, ?_, ?_, ?_⟩ <;> rfl

/-- Claim C4: a task whose worker reports failure on every dispatch ends
FAILED with `retry_count = max_retries` after exactly `max_retries + 1`
dispatch attempts (3 attempts for `max_retries = 2`); and over an arbitrary
response sequence the number of dispatch attempts never exceeds
`max_retries + 1`, because the FAILED→PENDING retry re-dispatch is guarded
by `retry_count < max_retries`. -/
theorem C4_retry_budget (N : Nat) :
    (runAllFailures N).task.status = TaskStatus.failed ∧
      (runAllFailures N).task.retry_count = N ∧
      (runAllFailures N).dispatch_count = N + 1 ∧
      (runAllFailures 2).dispatch_count = 3 ∧
      ∀ rs : List (String × Option String),
        (runResponses N rs).dispatch_count ≤ N + 1 := by
  refine ⟨?_, ?_, ?_, ?_, ?_⟩
  · rw [runAllFailures_eq]; rfl
  · rw [runAllFailures_eq]; rfl
  · rw [runAllFailures_eq]; rfl
  · rw [runAllFailures_eq]; rfl
  · intro rs
    unfold runResponses
    have h0 : (assign_and_execute_task noRandom (initState N)) = midState N 0 :=
      assign_init N
    rw [h0]
    have := foldl_dispatch_le rs (midState N 0) (by simp [midState])
      (by simp [midState])
    simpa [midState] using this

/-- Claim C5 counterexample: the first retry cycle of a task (retry budget 3,
first failure) records a backoff delay of `2^1 = 2` seconds, not the
`2^0 = 1` second the claim derives, because `_handle_task_response`
increments `retry_count` before computing `2 ** task.retry_count`. -/
theorem C5_counterexample_first_retry_delay :
    (afterKFailures 3 1).sleeps = [2 ^ 1] ∧
      (afterKFailures 3 1).sleeps ≠ [2 ^ 0] ∧
      (afterKFailures 3 1).task.retry_count = 1 := by
  refine ⟨rfl, by decide, rfl⟩

/-- Claim C5 (amended): each retry cycle increments `retry_count` exactly
once and then waits `2 ^ retry_count` seconds computed from the
*incremented* count: after `k` retries the recorded delays are
`2^1, 2^2, ..., 2^k` (the i-th retry waits `2^i` seconds, so the first retry
waits 2 seconds). -/
theorem C5_backoff_uses_incremented_count (N k : Nat) (h : k ≤ N) :
    (afterKFailures N k).sleeps = (List.range k).map (fun i => 2 ^ (i + 1)) ∧
      (afterKFailures N k).task.retry_count = k := by
  rw [afterKFailures_eq N k h]
  exact ⟨rfl, rfl⟩

/-- Witness for the amended C5: two retries of a budget-3 task record the
delays 2 and 4 seconds. -/
theorem C5_backoff_uses_incremented_count_witness :
    (afterKFailures 3 2).sleeps = (List.range 2).map (fun i => 2 ^ (i + 1)) ∧
      (afterKFailures 3 2).task.retry_count = 2 :=
  C5_backoff_uses_incremented_count 3 2 (by decide)

/-- The moment attempt 1 of a budget-3 task ends: the agent responded
"failed" and lines 447-449 marked the task FAILED — a terminal status —
while the stale watch from the dispatch is still pending. -/
def c6_attemptFailed : SupState :=
  mark_failed (some "boom") (assign_and_execute_task noRandom (initState 3))

/-- The same handler invocation then retries and re-dispatches
(lines 451-457), putting the task back IN_PROGRESS under a fresh watch. -/
def c6_retried : SupState := maybe_retry noRandom c6_attemptFailed

/-- The stale watch from attempt 1 reaching its deadline after the retry. -/
def c6_staleFire : SupState := monitor_task_timeout 300 c6_retried

/-- Claim C6 counterexample: the task reaches terminal FAILED before the
first watch's deadline (c6_attemptFailed), is then retried and re-dispatched;
when the stale watch fires it still sees IN_PROGRESS, force-fails the second
attempt with a timeout message and decrements the load — the watch of
attempt 1 was not effectively cancelled by the terminal state. -/
theorem C6_counterexample_stale_watch_fires :
    handle_task_response noRandom (assign_and_execute_task noRandom (initState 3))
        "failed" none (some "boom") = c6_retried ∧
      c6_attemptFailed.task.status = TaskStatus.failed ∧
      c6_retried.task.status = TaskStatus.in_progress ∧
      c6_staleFire.task.status = TaskStatus.failed ∧
      c6_staleFire.task.error_message = some "Task timed out after 300 seconds" ∧
      c6_staleFire ≠ c6_retried := by
  refine ⟨rfl, rfl, rfl, rfl, by decide, by decide⟩

/-- Claim C6 (amended): `_monitor_task_timeout` consults only the task's
status at the moment its deadline elapses: it leaves the state untouched iff
the task is not IN_PROGRESS then (in particular for every task that is in a
terminal state at the deadline), and force-fails the task with the timeout
message otherwise — which lets a stale watch from an earlier attempt fire on
a retried attempt that is IN_PROGRESS again. -/
theorem C6_monitor_checks_status_at_deadline (st : SupState) (timeout : Nat) :
    (st.task.status ≠ TaskStatus.in_progress →
      monitor_task_timeout timeout st = st) ∧
    (st.task.status = TaskStatus.in_progress →
      (monitor_task_timeout timeout st).task.status = TaskStatus.failed ∧
        (monitor_task_timeout timeout st).task.error_message =
          some ("Task timed out after " ++ toString timeout ++ " seconds")) := by
  constructor
  · intro h
    unfold monitor_task_timeout
    rw [if_neg h]
  · intro h
    unfold monitor_task_timeout
    rw [if_pos h]
    obtain ⟨_, ht⟩ := dec_load_counters
      { st with task := { st.task with
                          status := .failed,
                          error_message := some ("Task timed out after " ++
                            toString timeout ++ " seconds") } }
    rw [ht]
    exact ⟨rfl, rfl⟩

/-- A task that completed before its watch's deadline. -/
def c6_done : SupState :=
  handle_task_response noRandom (assign_and_execute_task noRandom (initState 3))
    "completed" none none

/-- Witness for the amended C6: the monitor leaves a COMPLETED task
untouched at the deadline. -/
theorem C6_monitor_checks_status_at_deadline_witness :
    monitor_task_timeout 300 c6_done = c6_done :=
  (C6_monitor_checks_status_at_deadline c6_done 300).1 (by decide)


/-! ### Workflow executor lemmas -/

theorem readySteps_mem (steps : List WorkflowStep) (comp running : List String)
    (s : WorkflowStep) :
    s ∈ readySteps steps comp running ↔
      s ∈ steps ∧ s.id ∉ comp ∧ s.id ∉ running ∧
        ∀ d ∈ s.depends_on, d ∈ comp := by
  simp [readySteps, List.mem_filter, List.all_eq_true, and_assoc]

theorem readySteps_sublist (steps : List WorkflowStep) (comp running : List String) :
    (readySteps steps comp running).Sublist steps :=
  List.filter_sublist steps

theorem processBatch_ok (outcome : String → Bool) :
    ∀ (batch : List WorkflowStep) (comp : List String),
      (∀ s ∈ batch, outcome s.id = true) →
      processBatch outcome comp batch =
        (comp ++ batch.map (fun s => s.id), none) := by
  intro batch
  induction batch with
  | nil => intro comp _; simp [processBatch]
  | cons s rest ih =>
    intro comp hall
    rw [processBatch, if_pos (hall s (List.mem_cons_self s rest))]
    rw [ih (comp ++ [s.id]) (fun t ht => hall t (List.mem_cons_of_mem s ht))]
    simp

theorem processBatch_none_inv (outcome : String → Bool) :
    ∀ (batch : List WorkflowStep) (comp comp2 : List String),
      processBatch outcome comp batch = (comp2, none) →
      comp2 = comp ++ batch.map (fun s => s.id) ∧
        ∀ s ∈ batch, outcome s.id = true := by
  intro batch
  induction batch with
  | nil =>
    intro comp comp2 h
    rw [processBatch] at h
    exact ⟨by simpa using (congrArg Prod.fst h).symm, by simp⟩
  | cons s rest ih =>
    intro comp comp2 h
    rw [processBatch] at h
    by_cases ho : outcome s.id
    · rw [if_pos ho] at h
      obtain ⟨h1, h2⟩ := ih (comp ++ [s.id]) comp2 h
      refine ⟨by simpa using h1, ?_⟩
      intro t ht
      rcases List.mem_cons.mp ht with h3 | h3
      · rw [h3]; exact ho
      · exact h2 t h3
    · rw [if_neg ho] at h
      exact absurd (congrArg Prod.snd h) (by simp)

theorem processBatch_some_inv (outcome : String → Bool) :
    ∀ (batch : List WorkflowStep) (comp comp2 : List String) (f : String),
      processBatch outcome comp batch = (comp2, some f) →
      outcome f = false ∧ f ∈ batch.map (fun s => s.id) := by
  intro batch
  induction batch with
  | nil =>
    intro comp comp2 f h
    rw [processBatch] at h
    exact absurd (congrArg Prod.snd h) (by simp)
  | cons s rest ih =>
    intro comp comp2 f h
    rw [processBatch] at h
    by_cases ho : outcome s.id
    · rw [if_pos ho] at h
      obtain ⟨h1, h2⟩ := ih (comp ++ [s.id]) comp2 f h
      exact ⟨h1, List.mem_cons_of_mem _ h2⟩
    · rw [if_neg ho] at h
      have hf : f = s.id := by
        have := congrArg Prod.snd h
        simpa using this.symm
      refine ⟨?_, ?_⟩
      · rw [hf]; simpa using ho
      · rw [hf]; simp

theorem execLoop_succ (outcome : String → Bool) (steps : List WorkflowStep)
    (fuel : Nat) (comp sched : List String) :
    execLoop outcome steps (fuel + 1) comp sched =
      match execPass outcome steps comp sched with
      | .done r => r
      | .next comp2 sched2 => execLoop outcome steps fuel comp2 sched2 := rfl

theorem execPass_full (outcome : String → Bool) (steps : List WorkflowStep)
    (comp sched : List String) (h : steps.length ≤ comp.length) :
    execPass outcome steps comp sched = .done ⟨.completedOk, sched, comp⟩ := by
  unfold execPass
  rw [if_pos h]

theorem execPass_stuck (outcome : String → Bool) (steps : List WorkflowStep)
    (comp sched : List String) (h : ¬ steps.length ≤ comp.length)
    (hr : readySteps steps comp [] = []) :
    execPass outcome steps comp sched = .done ⟨.circular, sched, comp⟩ := by
  unfold execPass
  rw [if_neg h]
  simp only [hr]

theorem execPass_batch (outcome : String → Bool) (steps : List WorkflowStep)
    (comp sched : List String) (b : WorkflowStep) (bs : List WorkflowStep)
    (h : ¬ steps.length ≤ comp.length)
    (hr : readySteps steps comp [] = b :: bs) :
    execPass outcome steps comp sched =
      (match processBatch outcome comp (b :: bs) with
        | (comp2, some f) =>
          .done ⟨.failedStep f, sched ++ (b :: bs).map (fun s => s.id), comp2⟩
        | (comp2, none) =>
          .next comp2 (sched ++ (b :: bs).map (fun s => s.id))) := by
  unfold execPass
  rw [if_neg h]
  simp only [hr]


theorem nodup_subset_length_le (comp ids : List String)
    (h1 : comp.Nodup) (h2 : ∀ d ∈ comp, d ∈ ids) :
    comp.length ≤ ids.length := by
  calc comp.length = comp.toFinset.card := (List.toFinset_card_of_nodup h1).symm
    _ ≤ ids.toFinset.card := by
        apply Finset.card_le_card
        intro x hx
        rw [List.mem_toFinset] at hx ⊢
        exact h2 x hx
    _ ≤ ids.length := ids.toFinset_card_le

theorem nodup_subset_cover (comp ids : List String)
    (h1 : comp.Nodup) (h2 : ∀ d ∈ comp, d ∈ ids) (h3 : ids.Nodup)
    (h4 : ids.length ≤ comp.length) :
    ∀ x ∈ ids, x ∈ comp := by
  have hsub : comp.toFinset ⊆ ids.toFinset := by
    intro x hx
    rw [List.mem_toFinset] at hx ⊢
    exact h2 x hx
  have hcard : ids.toFinset.card ≤ comp.toFinset.card := by
    rw [List.toFinset_card_of_nodup h1, List.toFinset_card_of_nodup h3]
    exact h4
  have heq : comp.toFinset = ids.toFinset :=
    Finset.eq_of_subset_of_card_le hsub hcard
  intro x hx
  have : x ∈ comp.toFinset := by
    rw [heq, List.mem_toFinset]
    exact hx
  rwa [List.mem_toFinset] at this

theorem nodup_missing_length_lt (comp ids : List String)
    (h1 : comp.Nodup) (h2 : ∀ d ∈ comp, d ∈ ids)
    (c : String) (hc : c ∈ ids) (hcc : c ∉ comp) :
    comp.length < ids.length := by
  have hsub : comp.toFinset ⊆ ids.toFinset.erase c := by
    intro x hx
    rw [List.mem_toFinset] at hx
    rw [Finset.mem_erase, List.mem_toFinset]
    exact ⟨fun hxc => hcc (hxc ▸ hx), h2 x hx⟩
  have hcmem : c ∈ ids.toFinset := List.mem_toFinset.mpr hc
  calc comp.length = comp.toFinset.card := (List.toFinset_card_of_nodup h1).symm
    _ ≤ (ids.toFinset.erase c).card := Finset.card_le_card hsub
    _ < ids.toFinset.card := Finset.card_erase_lt_of_mem hcmem
    _ ≤ ids.length := ids.toFinset_card_le

theorem list_exists_min_key {α : Type} (f : α → Nat) :
    ∀ l : List α, l ≠ [] → ∃ a ∈ l, ∀ b ∈ l, f a ≤ f b := by
  intro l
  induction l with
  | nil => intro h; exact absurd rfl h
  | cons x xs ih =>
    intro _
    cases xs with
    | nil =>
      refine ⟨x, List.mem_cons_self x [], ?_⟩
      intro b hb
      rcases List.mem_cons.mp hb with h1 | h1
      · rw [h1]
      · simp at h1
    | cons y ys =>
      obtain ⟨a, ha, hmin⟩ := ih (by simp)
      by_cases hfa : f x ≤ f a
      · refine ⟨x, List.mem_cons_self x (y :: ys), ?_⟩
        intro b hb
        rcases List.mem_cons.mp hb with h1 | h1
        · rw [h1]
        · exact le_trans hfa (hmin b h1)
      · refine ⟨a, List.mem_cons_of_mem x ha, ?_⟩
        intro b hb
        rcases List.mem_cons.mp hb with h1 | h1
        · rw [h1]; exact le_of_not_le hfa
        · exact hmin b h1

theorem id_inj (steps : List WorkflowStep) (hnd : (stepIds steps).Nodup) :
    ∀ s ∈ steps, ∀ t ∈ steps, s.id = t.id → s = t := by
  intro s hs t ht heq
  exact List.inj_on_of_nodup_map hnd hs ht heq

/-- Progress: over an acyclic step graph, a pass whose completed set does not
yet cover all steps always finds a ready step (the incomplete step of minimal
rank). -/
theorem ready_ne_nil (steps : List WorkflowStep)
    (rank : String → Nat)
    (hrank : ∀ s ∈ steps, ∀ d ∈ s.depends_on,
      (∃ t ∈ steps, t.id = d) ∧ rank d < rank s.id)
    (comp : List String)
    (hlt : ∃ s ∈ steps, s.id ∉ comp) :
    readySteps steps comp [] ≠ [] := by
  obtain ⟨s1, hs1, hs1c⟩ := hlt
  have hcand : s1 ∈ steps.filter (fun s => decide (s.id ∉ comp)) := by
    rw [List.mem_filter]
    exact ⟨hs1, by simpa using hs1c⟩
  obtain ⟨s0, hs0, hmin⟩ :=
    list_exists_min_key (fun s => rank s.id)
      (steps.filter (fun s => decide (s.id ∉ comp)))
      (List.ne_nil_of_mem hcand)
  rw [List.mem_filter] at hs0
  obtain ⟨hs0s, hs0c⟩ := hs0
  have hs0c' : s0.id ∉ comp := by simpa using hs0c
  apply List.ne_nil_of_mem (a := s0)
  rw [readySteps_mem]
  refine ⟨hs0s, hs0c', by simp, ?_⟩
  intro d hd
  by_contra hdc
  obtain ⟨⟨t, ht, htid⟩, hrd⟩ := hrank s0 hs0s d hd
  have htc : t ∈ steps.filter (fun s => decide (s.id ∉ comp)) := by
    rw [List.mem_filter]
    exact ⟨ht, by simp [htid, hdc]⟩
  have := hmin t htc
  rw [htid] at this
  omega


theorem batch_ids_facts (steps : List WorkflowStep)
    (hnd : (stepIds steps).Nodup) (comp : List String) :
    ((readySteps steps comp []).map (fun s => s.id)).Nodup ∧
      (∀ x ∈ (readySteps steps comp []).map (fun s => s.id), x ∉ comp) ∧
      (∀ x ∈ (readySteps steps comp []).map (fun s => s.id), x ∈ stepIds steps) := by
  refine ⟨?_, ?_, ?_⟩
  · exact List.Nodup.sublist
      (List.Sublist.map (fun s => s.id) (readySteps_sublist steps comp [])) hnd
  · intro x hx
    rw [List.mem_map] at hx
    obtain ⟨s, hs, hsx⟩ := hx
    rw [readySteps_mem] at hs
    exact hsx ▸ hs.2.1
  · intro x hx
    rw [List.mem_map] at hx
    obtain ⟨s, hs, hsx⟩ := hx
    rw [readySteps_mem] at hs
    exact hsx ▸ List.mem_map_of_mem (fun s => s.id) hs.1

theorem comp2_nodup (steps : List WorkflowStep) (hnd : (stepIds steps).Nodup)
    (comp : List String) (hcnd : comp.Nodup) :
    (comp ++ (readySteps steps comp []).map (fun s => s.id)).Nodup := by
  obtain ⟨h1, h2, _⟩ := batch_ids_facts steps hnd comp
  rw [List.nodup_append]
  exact ⟨hcnd, h1, fun a hac hab => h2 a hab hac⟩

/-- Over an acyclic graph the loop never runs out of fuel (given fuel at
least `steps.length + 1 - comp.length`) and never reaches the
circular-dependency branch. -/
theorem execLoop_no_abnormal (outcome : String → Bool)
    (steps : List WorkflowStep) (hnd : (stepIds steps).Nodup)
    (rank : String → Nat)
    (hrank : ∀ s ∈ steps, ∀ d ∈ s.depends_on,
      (∃ t ∈ steps, t.id = d) ∧ rank d < rank s.id) :
    ∀ (fuel : Nat) (comp sched : List String),
      comp.Nodup → (∀ d ∈ comp, d ∈ stepIds steps) →
      steps.length + 1 ≤ fuel + comp.length →
      (execLoop outcome steps fuel comp sched).result ≠ .outOfFuel ∧
        (execLoop outcome steps fuel comp sched).result ≠ .circular := by
  intro fuel
  induction fuel with
  | zero =>
    intro comp sched hcnd hcsub hfuel
    have hcl := nodup_subset_length_le comp (stepIds steps) hcnd hcsub
    rw [stepIds, List.length_map] at hcl
    omega
  | succ fuel ih =>
    intro comp sched hcnd hcsub hfuel
    rw [execLoop_succ]
    by_cases hle : steps.length ≤ comp.length
    · rw [execPass_full outcome steps comp sched hle]
      exact ⟨by simp, by simp⟩
    · have hmiss : ∃ s ∈ steps, s.id ∉ comp := by
        by_contra hall
        push_neg at hall
        have hsub2 : ∀ d ∈ stepIds steps, d ∈ comp := by
          intro d hd
          rw [stepIds, List.mem_map] at hd
          obtain ⟨s, hs, hsd⟩ := hd
          exact hsd ▸ hall s hs
        have := nodup_subset_length_le (stepIds steps) comp hnd hsub2
        rw [stepIds, List.length_map] at this
        exact hle this
      have hready := ready_ne_nil steps rank hrank comp hmiss
      cases hr : readySteps steps comp [] with
      | nil => exact absurd hr hready
      | cons b bs =>
        rw [execPass_batch outcome steps comp sched b bs hle hr]
        cases hpb : processBatch outcome comp (b :: bs) with
        | mk comp2 opt =>
          cases opt with
          | some f =>
            simp only [hpb]
            exact ⟨by simp, by simp⟩
          | none =>
            simp only [hpb]
            obtain ⟨hco, hallb⟩ := processBatch_none_inv outcome (b :: bs) comp comp2 hpb
            have hnd2 : comp2.Nodup := by
              rw [hco, ← hr]
              exact comp2_nodup steps hnd comp hcnd
            have hsub2 : ∀ d ∈ comp2, d ∈ stepIds steps := by
              intro d hd
              rw [hco] at hd
              rcases List.mem_append.mp hd with h1 | h1
              · exact hcsub d h1
              · exact (batch_ids_facts steps hnd comp).2.2 d (hr ▸ h1)
            have hlen : comp2.length = comp.length + (bs.length + 1) := by
              rw [hco]
              simp
            exact ih comp2 (sched ++ (b :: bs).map (fun s => s.id)) hnd2 hsub2
              (by omega)

/-- If the loop reports `completedOk` then every step's task completed, and
every scheduled step's outcome was `true`. -/
theorem execLoop_completedOk_sound (outcome : String → Bool)
    (steps : List WorkflowStep) (hnd : (stepIds steps).Nodup) :
    ∀ (fuel : Nat) (comp sched : List String),
      comp.Nodup → (∀ d ∈ comp, d ∈ stepIds steps) →
      (∀ d ∈ comp, outcome d = true) →
      (∀ d ∈ sched, outcome d = true) →
      (execLoop outcome steps fuel comp sched).result = .completedOk →
      (∀ s ∈ steps, outcome s.id = true) ∧
        (∀ d ∈ (execLoop outcome steps fuel comp sched).scheduled,
          outcome d = true) := by
  intro fuel
  induction fuel with
  | zero =>
    intro comp sched _ _ _ _ hres
    exact absurd hres (by simp [execLoop])
  | succ fuel ih =>
    intro comp sched hcnd hcsub hctrue hstrue hres
    rw [execLoop_succ] at hres ⊢
    by_cases hle : steps.length ≤ comp.length
    · rw [execPass_full outcome steps comp sched hle] at hres ⊢
      have hcover := nodup_subset_cover comp (stepIds steps) hcnd hcsub hnd
        (by rw [stepIds, List.length_map]; exact hle)
      refine ⟨?_, ?_⟩
      · intro s hs
        exact hctrue s.id (hcover s.id (List.mem_map_of_mem (fun s => s.id) hs))
      · intro d hd
        exact hstrue d hd
    · cases hr : readySteps steps comp [] with
      | nil =>
        rw [execPass_stuck outcome steps comp sched hle hr] at hres
        exact absurd hres (by simp)
      | cons b bs =>
        rw [execPass_batch outcome steps comp sched b bs hle hr] at hres ⊢
        cases hpb : processBatch outcome comp (b :: bs) with
        | mk comp2 opt =>
          cases opt with
          | some f =>
            rw [hpb] at hres
            simp at hres
          | none =>
            rw [hpb] at hres
            obtain ⟨hco, hallb⟩ := processBatch_none_inv outcome (b :: bs) comp comp2 hpb
            have hnd2 : comp2.Nodup := by
              rw [hco, ← hr]
              exact comp2_nodup steps hnd comp hcnd
            have hsub2 : ∀ d ∈ comp2, d ∈ stepIds steps := by
              intro d hd
              rw [hco] at hd
              rcases List.mem_append.mp hd with h1 | h1
              · exact hcsub d h1
              · exact (batch_ids_facts steps hnd comp).2.2 d (hr ▸ h1)
            have hbatchtrue : ∀ x ∈ (b :: bs).map (fun s => s.id),
                outcome x = true := by
              intro x hx
              rw [List.mem_map] at hx
              obtain ⟨s, hs, hsx⟩ := hx
              exact hsx ▸ hallb s hs
            have hctrue2 : ∀ d ∈ comp2, outcome d = true := by
              intro d hd
              rw [hco] at hd
              rcases List.mem_append.mp hd with h1 | h1
              · exact hctrue d h1
              · exact hbatchtrue d h1
            have hstrue2 : ∀ d ∈ sched ++ (b :: bs).map (fun s => s.id),
                outcome d = true := by
              intro d hd
              rcases List.mem_append.mp hd with h1 | h1
              · exact hstrue d h1
              · exact hbatchtrue d h1
            exact ih comp2 (sched ++ (b :: bs).map (fun s => s.id))
              hnd2 hsub2 hctrue2 hstrue2 hres

/-- If every step's task completes, an acyclic workflow run reports
`completedOk`. -/
theorem execLoop_all_true (outcome : String → Bool)
    (steps : List WorkflowStep) (hnd : (stepIds steps).Nodup)
    (rank : String → Nat)
    (hrank : ∀ s ∈ steps, ∀ d ∈ s.depends_on,
      (∃ t ∈ steps, t.id = d) ∧ rank d < rank s.id)
    (hall : ∀ s ∈ steps, outcome s.id = true) :
    ∀ (fuel : Nat) (comp sched : List String),
      comp.Nodup → (∀ d ∈ comp, d ∈ stepIds steps) →
      steps.length + 1 ≤ fuel + comp.length →
      (execLoop outcome steps fuel comp sched).result = .completedOk := by
  intro fuel
  induction fuel with
  | zero =>
    intro comp sched hcnd hcsub hfuel
    have hcl := nodup_subset_length_le comp (stepIds steps) hcnd hcsub
    rw [stepIds, List.length_map] at hcl
    omega
  | succ fuel ih =>
    intro comp sched hcnd hcsub hfuel
    rw [execLoop_succ]
    by_cases hle : steps.length ≤ comp.length
    · rw [execPass_full outcome steps comp sched hle]
    · have hmiss : ∃ s ∈ steps, s.id ∉ comp := by
        by_contra hall2
        push_neg at hall2
        have hsub2 : ∀ d ∈ stepIds steps, d ∈ comp := by
          intro d hd
          rw [stepIds, List.mem_map] at hd
          obtain ⟨s, hs, hsd⟩ := hd
          exact hsd ▸ hall2 s hs
        have := nodup_subset_length_le (stepIds steps) comp hnd hsub2
        rw [stepIds, List.length_map] at this
        exact hle this
      have hready := ready_ne_nil steps rank hrank comp hmiss
      cases hr : readySteps steps comp [] with
      | nil => exact absurd hr hready
      | cons b bs =>
        rw [execPass_batch outcome steps comp sched b bs hle hr]
        have hallb : ∀ s ∈ b :: bs, outcome s.id = true := by
          intro s hs
          have : s ∈ readySteps steps comp [] := hr ▸ hs
          rw [readySteps_mem] at this
          exact hall s this.1
        rw [processBatch_ok outcome (b :: bs) comp hallb]
        have hco : (comp ++ (b :: bs).map (fun s => s.id)).Nodup := by
          rw [← hr]
          exact comp2_nodup steps hnd comp hcnd
        have hsub2 : ∀ d ∈ comp ++ (b :: bs).map (fun s => s.id),
            d ∈ stepIds steps := by
          intro d hd
          rcases List.mem_append.mp hd with h1 | h1
          · exact hcsub d h1
          · exact (batch_ids_facts steps hnd comp).2.2 d (hr ▸ h1)
        have hlen : (comp ++ (b :: bs).map (fun s => s.id)).length =
            comp.length + (bs.length + 1) := by simp
        exact ih (comp ++ (b :: bs).map (fun s => s.id))
          (sched ++ (b :: bs).map (fun s => s.id)) hco hsub2 (by omega)

/-- A `failedStep f` report always names a scheduled step whose task
failed. -/
theorem execLoop_failedStep_inv (outcome : String → Bool)
    (steps : List WorkflowStep) :
    ∀ (fuel : Nat) (comp sched : List String) (f : String),
      (execLoop outcome steps fuel comp sched).result = .failedStep f →
      outcome f = false ∧
        f ∈ (execLoop outcome steps fuel comp sched).scheduled := by
  intro fuel
  induction fuel with
  | zero =>
    intro comp sched f hres
    exact absurd hres (by simp [execLoop])
  | succ fuel ih =>
    intro comp sched f hres
    rw [execLoop_succ] at hres ⊢
    by_cases hle : steps.length ≤ comp.length
    · rw [execPass_full outcome steps comp sched hle] at hres
      exact absurd hres (by simp)
    · cases hr : readySteps steps comp [] with
      | nil =>
        rw [execPass_stuck outcome steps comp sched hle hr] at hres
        exact absurd hres (by simp)
      | cons b bs =>
        rw [execPass_batch outcome steps comp sched b bs hle hr] at hres ⊢
        cases hpb : processBatch outcome comp (b :: bs) with
        | mk comp2 opt =>
          cases opt with
          | some g =>
            rw [hpb] at hres
            have hgf : g = f := by simpa using hres
            obtain ⟨h1, h2⟩ :=
              processBatch_some_inv outcome (b :: bs) comp comp2 g hpb
            rw [hgf] at h1 h2
            refine ⟨h1, ?_⟩
            show f ∈ sched ++ (b :: bs).map (fun s => s.id)
            exact List.mem_append.mpr (Or.inr h2)
          | none =>
            rw [hpb] at hres
            exact ih comp2 (sched ++ (b :: bs).map (fun s => s.id)) f hres


theorem statusOf_eq_completed {r : WfResult} :
    statusOf r = TaskStatus.completed ↔ r = WfResult.completedOk := by
  cases r <;> simp [statusOf]

/-- Scenario workflow: S1 with no dependencies; S2 and S3 both depend on
S1. -/
def scenSteps : List WorkflowStep :=
  [{ id := "S1", agent_type := "worker", task_type := "fetch", depends_on := [] },
   { id := "S2", agent_type := "worker", task_type := "analyze", depends_on := ["S1"] },
   { id := "S3", agent_type := "worker", task_type := "summarize", depends_on := ["S1"] }]

/-- Outcome oracle under which S1's task fails and every other step task
completes. -/
def failS1 : String → Bool := fun d => !(d == "S1")

/-- Outcome oracle under which every step task completes. -/
def allOk : String → Bool := fun _ => true

/-- Claim C2: over an acyclic step graph, `_execute_workflow` ends COMPLETED
iff every step's task completes, and ends FAILED iff some scheduled step's
task reaches terminal FAILED; in the S1/S2/S3 scenario with S1 failing, the
workflow is FAILED and only S1 was ever scheduled — S2 and S3 never get a
task. -/
theorem C2_workflow_status_iff (steps : List WorkflowStep)
    (outcome : String → Bool) (h : WfAcyclic steps) :
    ((statusOf (execute_workflow outcome steps).result = TaskStatus.completed) ↔
      ∀ s ∈ steps, outcome s.id = true) ∧
    ((statusOf (execute_workflow outcome steps).result = TaskStatus.failed) ↔
      ∃ d ∈ (execute_workflow outcome steps).scheduled, outcome d = false) ∧
    (execute_workflow failS1 scenSteps).scheduled = ["S1"] ∧
    statusOf (execute_workflow failS1 scenSteps).result = TaskStatus.failed := by
  obtain ⟨hnd, rank, hrank⟩ := h
  have hfuel : steps.length + 1 ≤ (steps.length + 1) + ([] : List String).length := by
    simp
  have hnab := execLoop_no_abnormal outcome steps hnd rank hrank
    (steps.length + 1) [] [] (by simp) (by simp) hfuel
  refine ⟨?_, ?_, by decide, by decide⟩
  · constructor
    · intro hc
      rw [statusOf_eq_completed] at hc
      exact (execLoop_completedOk_sound outcome steps hnd (steps.length + 1) [] []
        (by simp) (by simp) (by simp) (by simp) hc).1
    · intro hall
      have hres := execLoop_all_true outcome steps hnd rank hrank hall
        (steps.length + 1) [] [] (by simp) (by simp) hfuel
      rw [show (execute_workflow outcome steps).result = WfResult.completedOk
        from hres]
      rfl
  · constructor
    · intro hf
      cases hr : (execute_workflow outcome steps).result with
      | completedOk =>
        rw [show (execute_workflow outcome steps).result = WfResult.completedOk
          from hr] at hf
        simp [statusOf] at hf
      | failedStep f =>
        obtain ⟨h1, h2⟩ := execLoop_failedStep_inv outcome steps
          (steps.length + 1) [] [] f hr
        exact ⟨f, h2, h1⟩
      | circular => exact absurd hr hnab.2
      | outOfFuel => exact absurd hr hnab.1
    · rintro ⟨d, hd, hfalse⟩
      cases hr : (execute_workflow outcome steps).result with
      | completedOk =>
        have := (execLoop_completedOk_sound outcome steps hnd (steps.length + 1)
          [] [] (by simp) (by simp) (by simp) (by simp) hr).2 d hd
        rw [hfalse] at this
        exact absurd this (by simp)
      | failedStep f =>
        rfl
      | circular => exact absurd hr hnab.2
      | outOfFuel => exact absurd hr hnab.1

/-- Witness for C2: the scenario workflow with every step task completing
reaches COMPLETED (the acyclicity hypothesis is discharged by the rank
function S1 ↦ 0, others ↦ 1). -/
theorem C2_workflow_status_iff_witness :
    statusOf (execute_workflow allOk scenSteps).result = TaskStatus.completed :=
  (C2_workflow_status_iff scenSteps allOk
    ⟨by decide, fun d => if d = "S1" then 0 else 1, by decide⟩).1.mpr (by decide)


/-- A ready step never lies on a cycle whose members are all still
incomplete: its dependencies are all completed, but each cycle member
depends on another (incomplete) cycle member. -/
theorem batch_avoids_cycle (steps : List WorkflowStep)
    (hnd : (stepIds steps).Nodup) (C : List String)
    (hC : ∀ d ∈ C, ∃ s ∈ steps, s.id = d ∧ ∃ d2 ∈ C, d2 ∈ s.depends_on)
    (comp : List String) (hdisj : ∀ d ∈ comp, d ∉ C) :
    ∀ s ∈ readySteps steps comp [], s.id ∉ C := by
  intro s hs hsC
  rw [readySteps_mem] at hs
  obtain ⟨t, ht, htid, d2, hd2C, hd2dep⟩ := hC s.id hsC
  have hts : t = s := id_inj steps hnd t ht s hs.1 htid
  rw [hts] at hd2dep
  exact hdisj d2 (hs.2.2.2 d2 hd2dep) hd2C

/-- Over a cyclic graph the loop always terminates in the circular branch or
with a failed step (cycle members are never scheduled, so the completed set
can never cover all steps). -/
theorem execLoop_cyclic_failed (outcome : String → Bool)
    (steps : List WorkflowStep) (hnd : (stepIds steps).Nodup)
    (C : List String) (hCne : C ≠ [])
    (hC : ∀ d ∈ C, ∃ s ∈ steps, s.id = d ∧ ∃ d2 ∈ C, d2 ∈ s.depends_on) :
    ∀ (fuel : Nat) (comp sched : List String),
      comp.Nodup → (∀ d ∈ comp, d ∈ stepIds steps) → (∀ d ∈ comp, d ∉ C) →
      steps.length + 1 ≤ fuel + comp.length →
      ((execLoop outcome steps fuel comp sched).result = .circular ∨
        ∃ f, (execLoop outcome steps fuel comp sched).result = .failedStep f) := by
  intro fuel
  have hcmem : ∀ comp : List String, comp.Nodup →
      (∀ d ∈ comp, d ∈ stepIds steps) → (∀ d ∈ comp, d ∉ C) →
      comp.length < steps.length := by
    intro comp hcnd hcsub hdisj
    obtain ⟨c, hcC⟩ := List.exists_mem_of_ne_nil C hCne
    obtain ⟨sc, hsc, hscid, _⟩ := hC c hcC
    have hcid : c ∈ stepIds steps :=
      hscid ▸ List.mem_map_of_mem (fun s => s.id) hsc
    have hccomp : c ∉ comp := fun hcc => hdisj c hcc hcC
    have := nodup_missing_length_lt comp (stepIds steps) hcnd hcsub c hcid hccomp
    rwa [stepIds, List.length_map] at this
  induction fuel with
  | zero =>
    intro comp sched hcnd hcsub hdisj hfuel
    have := hcmem comp hcnd hcsub hdisj
    omega
  | succ fuel ih =>
    intro comp sched hcnd hcsub hdisj hfuel
    rw [execLoop_succ]
    by_cases hle : steps.length ≤ comp.length
    · have := hcmem comp hcnd hcsub hdisj
      omega
    · cases hr : readySteps steps comp [] with
      | nil =>
        rw [execPass_stuck outcome steps comp sched hle hr]
        exact Or.inl rfl
      | cons b bs =>
        rw [execPass_batch outcome steps comp sched b bs hle hr]
        cases hpb : processBatch outcome comp (b :: bs) with
        | mk comp2 opt =>
          cases opt with
          | some f => exact Or.inr ⟨f, rfl⟩
          | none =>
            obtain ⟨hco, hallb⟩ :=
              processBatch_none_inv outcome (b :: bs) comp comp2 hpb
            have hnd2 : comp2.Nodup := by
              rw [hco, ← hr]
              exact comp2_nodup steps hnd comp hcnd
            have hsub2 : ∀ d ∈ comp2, d ∈ stepIds steps := by
              intro d hd
              rw [hco] at hd
              rcases List.mem_append.mp hd with h1 | h1
              · exact hcsub d h1
              · exact (batch_ids_facts steps hnd comp).2.2 d (hr ▸ h1)
            have hdisj2 : ∀ d ∈ comp2, d ∉ C := by
              intro d hd
              rw [hco] at hd
              rcases List.mem_append.mp hd with h1 | h1
              · exact hdisj d h1
              · rw [List.mem_map] at h1
                obtain ⟨s, hs, hsd⟩ := h1
                exact hsd ▸ batch_avoids_cycle steps hnd C hC comp hdisj s
                  (hr ▸ hs)
            have hlen : comp2.length = comp.length + (bs.length + 1) := by
              rw [hco]; simp
            exact ih comp2 (sched ++ (b :: bs).map (fun s => s.id))
              hnd2 hsub2 hdisj2 (by omega)

/-- Over a cyclic graph with every dispatched step task succeeding, the loop
terminates exactly in the circular-dependency branch. -/
theorem execLoop_cyclic_all_true (outcome : String → Bool)
    (steps : List WorkflowStep) (hnd : (stepIds steps).Nodup)
    (C : List String) (hCne : C ≠ [])
    (hC : ∀ d ∈ C, ∃ s ∈ steps, s.id = d ∧ ∃ d2 ∈ C, d2 ∈ s.depends_on)
    (hall : ∀ s ∈ steps, outcome s.id = true) :
    ∀ (fuel : Nat) (comp sched : List String),
      comp.Nodup → (∀ d ∈ comp, d ∈ stepIds steps) → (∀ d ∈ comp, d ∉ C) →
      steps.length + 1 ≤ fuel + comp.length →
      (execLoop outcome steps fuel comp sched).result = .circular := by
  intro fuel
  have hcmem : ∀ comp : List String, comp.Nodup →
      (∀ d ∈ comp, d ∈ stepIds steps) → (∀ d ∈ comp, d ∉ C) →
      comp.length < steps.length := by
    intro comp hcnd hcsub hdisj
    obtain ⟨c, hcC⟩ := List.exists_mem_of_ne_nil C hCne
    obtain ⟨sc, hsc, hscid, _⟩ := hC c hcC
    have hcid : c ∈ stepIds steps :=
      hscid ▸ List.mem_map_of_mem (fun s => s.id) hsc
    have hccomp : c ∉ comp := fun hcc => hdisj c hcc hcC
    have := nodup_missing_length_lt comp (stepIds steps) hcnd hcsub c hcid hccomp
    rwa [stepIds, List.length_map] at this
  induction fuel with
  | zero =>
    intro comp sched hcnd hcsub hdisj hfuel
    have := hcmem comp hcnd hcsub hdisj
    omega
  | succ fuel ih =>
    intro comp sched hcnd hcsub hdisj hfuel
    rw [execLoop_succ]
    by_cases hle : steps.length ≤ comp.length
    · have := hcmem comp hcnd hcsub hdisj
      omega
    · cases hr : readySteps steps comp [] with
      | nil =>
        rw [execPass_stuck outcome steps comp sched hle hr]
      | cons b bs =>
        rw [execPass_batch outcome steps comp sched b bs hle hr]
        have hallb : ∀ s ∈ b :: bs, outcome s.id = true := by
          intro s hs
          have hmem : s ∈ readySteps steps comp [] := hr ▸ hs
          rw [readySteps_mem] at hmem
          exact hall s hmem.1
        rw [processBatch_ok outcome (b :: bs) comp hallb]
        have hnd2 : (comp ++ (b :: bs).map (fun s => s.id)).Nodup := by
          rw [← hr]
          exact comp2_nodup steps hnd comp hcnd
        have hsub2 : ∀ d ∈ comp ++ (b :: bs).map (fun s => s.id),
            d ∈ stepIds steps := by
          intro d hd
          rcases List.mem_append.mp hd with h1 | h1
          · exact hcsub d h1
          · exact (batch_ids_facts steps hnd comp).2.2 d (hr ▸ h1)
        have hdisj2 : ∀ d ∈ comp ++ (b :: bs).map (fun s => s.id), d ∉ C := by
          intro d hd
          rcases List.mem_append.mp hd with h1 | h1
          · exact hdisj d h1
          · rw [List.mem_map] at h1
            obtain ⟨s, hs, hsd⟩ := h1
            exact hsd ▸ batch_avoids_cycle steps hnd C hC comp hdisj s (hr ▸ hs)
        have hlen : (comp ++ (b :: bs).map (fun s => s.id)).length =
            comp.length + (bs.length + 1) := by simp
        exact ih (comp ++ (b :: bs).map (fun s => s.id))
          (sched ++ (b :: bs).map (fun s => s.id)) hnd2 hsub2 hdisj2 (by omega)


/-- A two-step cycle: S2 and S3 depend on each other. -/
def cyc2Steps : List WorkflowStep :=
  [{ id := "S2", agent_type := "worker", task_type := "analyze", depends_on := ["S3"] },
   { id := "S3", agent_type := "worker", task_type := "summarize", depends_on := ["S2"] }]

/-- The same cycle plus an independent step S1. -/
def cyc3Steps : List WorkflowStep :=
  [{ id := "S1", agent_type := "worker", task_type := "fetch", depends_on := [] },
   { id := "S2", agent_type := "worker", task_type := "analyze", depends_on := ["S3"] },
   { id := "S3", agent_type := "worker", task_type := "summarize", depends_on := ["S2"] }]

/-- Claim C3 counterexample: a workflow whose step graph contains a cycle
(S2 ↔ S3) but whose independent step S1 fails ends FAILED through the
step-failure branch, not through the circular-dependency error, so "FAILED
due to a circular-dependency error" does not hold of every cyclic
workflow. -/
theorem C3_counterexample_cycle_fails_without_circular_error :
    HasCycle cyc3Steps ∧
      (execute_workflow failS1 cyc3Steps).result = WfResult.failedStep "S1" ∧
      (execute_workflow failS1 cyc3Steps).result ≠ WfResult.circular :=
  ⟨⟨["S2", "S3"], by decide, by decide⟩, by decide, by decide⟩

/-- Claim C3 (amended): a workflow whose step graph contains a cycle always
terminates (the loop never exhausts its fuel) in status FAILED; the failure
is the circular-dependency error whenever every dispatched step task
succeeds (a failing step task can pre-empt it); and the circularity error is
declared in a pass exactly when not all steps are completed and the set of
ready steps is empty — the running map being empty at the top of every pass
because the inner polling loop drains it. -/
theorem C3_cyclic_terminates_failed (steps : List WorkflowStep)
    (outcome : String → Bool) (hnd : (stepIds steps).Nodup)
    (hcyc : HasCycle steps) :
    (execute_workflow outcome steps).result ≠ WfResult.outOfFuel ∧
    statusOf (execute_workflow outcome steps).result = TaskStatus.failed ∧
    ((∀ s ∈ steps, outcome s.id = true) →
      (execute_workflow outcome steps).result = WfResult.circular) ∧
    (∀ comp sched : List String,
      execPass outcome steps comp sched =
          PassResult.done ⟨WfResult.circular, sched, comp⟩ ↔
        (comp.length < steps.length ∧ readySteps steps comp [] = [])) := by
  obtain ⟨C, hCne, hC⟩ := hcyc
  have hmain := execLoop_cyclic_failed outcome steps hnd C hCne hC
    (steps.length + 1) [] [] (by simp) (by simp) (by simp) (by simp)
  refine ⟨?_, ?_, ?_, ?_⟩
  · rcases hmain with h | ⟨f, h⟩
    · intro hcontra
      exact absurd (h.symm.trans hcontra) (by simp)
    · intro hcontra
      exact absurd (h.symm.trans hcontra) (by simp)
  · rcases hmain with h | ⟨f, h⟩
    · rw [show (execute_workflow outcome steps).result = WfResult.circular from h]
      rfl
    · rw [show (execute_workflow outcome steps).result = WfResult.failedStep f
        from h]
      rfl
  · intro hall
    exact execLoop_cyclic_all_true outcome steps hnd C hCne hC hall
      (steps.length + 1) [] [] (by simp) (by simp) (by simp) (by simp)
  · intro comp sched
    constructor
    · intro hp
      by_cases hle : steps.length ≤ comp.length
      · rw [execPass_full outcome steps comp sched hle] at hp
        simp at hp
      · cases hr : readySteps steps comp [] with
        | nil => exact ⟨by omega, rfl⟩
        | cons b bs =>
          rw [execPass_batch outcome steps comp sched b bs hle hr] at hp
          cases hpb : processBatch outcome comp (b :: bs) with
          | mk comp2 opt =>
            rw [hpb] at hp
            cases opt with
            | some f => simp at hp
            | none => simp at hp
    · rintro ⟨h1, h2⟩
      exact execPass_stuck outcome steps comp sched (by omega) h2

/-- Witness for the amended C3: the pure two-step cycle with succeeding
tasks terminates in the circular-dependency error. -/
theorem C3_cyclic_terminates_failed_witness :
    (execute_workflow allOk cyc2Steps).result = WfResult.circular :=
  (C3_cyclic_terminates_failed cyc2Steps allOk (by decide)
    ⟨["S2", "S3"], by decide, by decide⟩).2.2.1 (by decide)

end Supervisor
